import Mathlib

/-!
Verification of the phase-assembly core of `nvtabular/workflow.py`.

The development shallowly embeds the task-graph builder
(`_compile_dict_from_list`, `_build_tasks`, `_is_repeat_op`), the phase
assembler (`_sort_task_types`, `_phase_creator`, `_find_parents`,
`load_config`), the reordering pass (`Workflow.reorder_tasks`), the
configuration entry point (`_config_add_ops`) and the transform applier
(`_run_trans_ops_for_phase`, `apply_ops`).

Python-specific behaviours are modelled exactly:
* `a in b` on strings is substring containment (`strMem`);
* `list.remove(x)` removes the first occurrence and raises `ValueError`
  when `x` is absent — fallible removals are modelled in `Except Unit`;
* `for tup in master_list` combined with `master_list.remove(tup)` uses an
  index cursor over the shrinking list, skipping the element that slides
  into the removed slot (`sortLoop`).
-/

namespace NVT

/-- Python's `a in b` on strings: `a` occurs in `b` as a contiguous
substring (the empty string occurs in every string). -/
def strMemAux (a : List Char) : List Char → Bool
  | [] => a.isEmpty
  | c :: rest => List.isPrefixOf a (c :: rest) || strMemAux a rest

/-- `strMem a b` models the Python expression `a in b` for strings. -/
def strMem (a b : String) : Bool :=
  strMemAux a.data b.data

/-- A statistic operator as it occurs in a `req_stats` list: only its
`_id` is consulted by the workflow code. -/
structure StatOp where
  id : String
deriving DecidableEq, Repr

/-- The operator kind hierarchy used by `isinstance` dispatch:
`StatOperator`, plain `TransformOperator`, and `DFOperator`
(a stat-dependent transform, itself a `TransformOperator` subclass). -/
inductive OpKind
  | stat
  | transform
  | dfop
deriving DecidableEq, Repr

/-- An operator instance: `_id`, its kind, its `req_stats` list (only
meaningful for `DFOperator`, which is the only class carrying the
attribute), and `default_in` as returned by `get_default_in`. -/
structure Op where
  id : String
  kind : OpKind
  reqStats : List StatOp
  defaultIn : String
deriving DecidableEq, Repr

/-- The operator object a synthesized statistic task stores: the
`StatOperator` instance taken from `req_stats`. -/
def StatOp.toOp (s : StatOp) : Op :=
  { id := s.id, kind := OpKind.stat, reqStats := [], defaultIn := "" }

/-- A task tuple `(operator, main_columns_class, col_sub_key, required_operators)`
exactly as built by `_build_tasks`. -/
structure Task where
  op : Op
  cols : String
  deps : List String
  parents : List StatOp
deriving DecidableEq, Repr

/-- `BaseWorkflow._is_repeat_op`: `op._id in task_d[0]._id and cols == task_d[1]`
for some task of the master list.  Note the substring containment. -/
def isRepeatOpId (opId : String) (cols : String) (master : List Task) : Bool :=
  master.any (fun t => strMem opId t.op.id && cols == t.cols)

/-- `dep_grp = dep_grp if dep_grp else ["base"]`. -/
def defaultDeps (depGrp : List String) : List String :=
  if depGrp.isEmpty then ["base"] else depGrp

/-- The body of the `_build_tasks` loop for one `(target_op, dep_grp)` pair:
synthesize missing statistic tasks for a `DFOperator`'s `req_stats`, then
append the target task unless it repeats an existing master-list task. -/
def tasksForPair (cols : String) (master : List Task) (p : Op × List String) :
    List Task :=
  let statTasks : List Task :=
    if p.1.kind == OpKind.dfop then
      p.1.reqStats.filterMap (fun s =>
        if isRepeatOpId s.id cols master then none
        else some { op := s.toOp, cols := cols, deps := defaultDeps p.2, parents := [] })
    else []
  let parents : List StatOp := if p.1.kind == OpKind.dfop then p.1.reqStats else []
  statTasks ++
    (if isRepeatOpId p.1.id cols master then []
     else [{ op := p.1, cols := cols, deps := defaultDeps p.2, parents := parents }])

/-- The target task appended for `(target_op, dep_grp)` when it is not a
repeat. -/
def targetTask (target : Op) (cols : String) (depGrp : List String) : Task :=
  { op := target, cols := cols, deps := defaultDeps depGrp
    parents := if target.kind == OpKind.dfop then target.reqStats else [] }

/-- `BaseWorkflow._build_tasks` over one task set (a dict from column-group
key to the compiled `(op, dep)` pairs), checked against the fixed master
list passed in (tasks appended within the same call are not consulted). -/
def buildTasks (cells : List (String × List (Op × List String)))
    (master : List Task) : List Task :=
  cells.flatMap (fun c => c.2.flatMap (tasksForPair c.1 master))

/-- One chain from `_compile_dict_from_list`: each operator is paired with
`[previous._id]`, the first with `[]`. -/
def chainTasks : Option String → List Op → List (Op × List String)
  | _, [] => []
  | none, o :: rest => (o, []) :: chainTasks (some o.id) rest
  | some prev, o :: rest => (o, [prev]) :: chainTasks (some o.id) rest

/-- One config cell of `_compile_dict_from_list`: flatten each declared
chain (a single operator counts as a one-element chain). -/
def compileCell (chains : List (List Op)) : List (Op × List String) :=
  chains.flatMap (chainTasks none)

/-- A declarative configuration: phase key (`FE`, `PP`) to column-group key
to declared operator chains, in insertion order. -/
def Config : Type :=
  List (String × List (String × List (List Op)))

/-- `BaseWorkflow._compile_dict_from_list`. -/
def compileConfig (cfg : Config) :
    List (String × List (String × List (Op × List String))) :=
  cfg.map (fun pc => (pc.1, pc.2.map (fun kc => (kc.1, compileCell kc.2))))

/-- The master task list built by the `load_config` loop: each task set is
built against the master list accumulated from the previous task sets and
then appended to it. -/
def masterFromConfig (cfg : Config) : List Task :=
  (compileConfig cfg).foldl (fun master ts => master ++ buildTasks ts.2 master) []

/-- `list.remove(x)` for task lists when the element is known present
(as in `_sort_task_types`, where the removed element was just read from
the list): drop the first occurrence. -/
def removeFirstTask : List Task → Task → List Task
  | [], _ => []
  | y :: ys, x => if y = x then ys else y :: removeFirstTask ys x

/-- The `for tup in master_list` loop of `_sort_task_types`, with Python's
index-cursor semantics over the list being mutated: removing the current
element shifts the next one into its slot, and the incremented cursor
skips it.  The fuel starts at the initial length, which bounds the number
of iterations that can still find an element at the cursor. -/
def sortLoop : Nat → Nat → List Task → List Task → List Task × List Task
  | 0, _, master, nodeps => (nodeps, master)
  | fuel + 1, i, master, nodeps =>
    match master[i]? with
    | none => (nodeps, master)
    | some tup =>
      if "base" ∈ tup.deps ∧ tup.parents = [] then
        sortLoop fuel (i + 1) (removeFirstTask master tup) (nodeps ++ [tup])
      else
        sortLoop fuel (i + 1) master nodeps

/-- `BaseWorkflow._sort_task_types`: returns `(nodeps, master_list)` after
the mutating scan. -/
def sortTaskTypes (master : List Task) : List Task × List Task :=
  sortLoop master.length 0 master []

/-- `list.remove(x)` for `ops_copy` in `_find_parents`: removing a value
that is absent raises `ValueError`, modelled as `Except.error`. -/
def removeFirstStat : List StatOp → StatOp → Except Unit (List StatOp)
  | [], _ => Except.error ()
  | y :: ys, x =>
    if y = x then Except.ok ys
    else
      match removeFirstStat ys x with
      | Except.error e => Except.error e
      | Except.ok l => Except.ok (y :: l)

/-- The inner `for task in phase` loop of `_find_parents` for a fixed
parent operator: on each substring match, remove the parent from the
remaining copy (which can raise). -/
def scanPhaseForOp (p : StatOp) : List Task → List StatOp → Except Unit (List StatOp)
  | [], copy => Except.ok copy
  | t :: ts, copy =>
    if copy.isEmpty then Except.ok copy
    else if strMem p.id t.op.id then
      match removeFirstStat copy p with
      | Except.error e => Except.error e
      | Except.ok c => scanPhaseForOp p ts c
    else scanPhaseForOp p ts copy

/-- The `for phase in self.phases[:phase_idx]` loop of `_find_parents`
for a fixed parent operator. -/
def scanPhasesForOp (p : StatOp) :
    List (List Task) → List StatOp → Except Unit (List StatOp)
  | [], copy => Except.ok copy
  | ph :: phs, copy =>
    if copy.isEmpty then Except.ok copy
    else
      match scanPhaseForOp p ph copy with
      | Except.error e => Except.error e
      | Except.ok c => scanPhasesForOp p phs c

/-- The outer `for op in ops_list` loop of `_find_parents`. -/
def findParentsAux (earlier : List (List Task)) :
    List StatOp → List StatOp → Except Unit (List StatOp)
  | [], copy => Except.ok copy
  | p :: ps, copy =>
    match scanPhasesForOp p earlier copy with
    | Except.error e => Except.error e
    | Except.ok c => findParentsAux earlier ps c

/-- `BaseWorkflow._find_parents`: true exactly when the working copy of
`ops_list` is emptied while scanning `phases[:phase_idx]` (the Python
function returns `True` or `None`; `None` is falsy at the call site). -/
def findParents (phases : List (List Task)) (opsList : List StatOp)
    (phaseIdx : Nat) : Except Unit Bool :=
  match findParentsAux (phases.take phaseIdx) opsList opsList with
  | Except.error e => Except.error e
  | Except.ok c => Except.ok c.isEmpty

/-- `list.remove(x)` for `cols_needed` (always guarded by a membership
check in the source, hence infallible). -/
def removeFirstStr : List String → String → List String
  | [], _ => []
  | y :: ys, x => if y = x then ys else y :: removeFirstStr ys x

/-- `cols_needed = task[2].copy(); if "base" in cols_needed: cols_needed.remove("base")`. -/
def initCols (t : Task) : List String :=
  if "base" ∈ t.deps then removeFirstStr t.deps "base" else t.deps

/-- The `for p_task in phase` loop of `_phase_creator`: strike out the ids
produced by the phase from the still-needed dependency columns. -/
def scanPhaseCols : List Task → List String → List String
  | [], cols => cols
  | t :: ts, cols =>
    if cols.isEmpty then cols
    else if t.op.id ∈ cols then scanPhaseCols ts (removeFirstStr cols t.op.id)
    else scanPhaseCols ts cols

/-- The `for idx, phase in enumerate(self.phases)` loop of `_phase_creator`
for one task: the remaining phases are always `allPhases.drop idx`.  On
success the task is appended to the qualifying phase; if no phase
qualifies, a fresh trailing phase `[task]` is appended. -/
def placeLoop (task : Task) (allPhases : List (List Task)) :
    Nat → List (List Task) → List String → Except Unit (List (List Task))
  | _, [], _ => Except.ok (allPhases ++ [[task]])
  | idx, ph :: rest, cols =>
    let cols' := scanPhaseCols ph cols
    if cols'.isEmpty then
      match findParents allPhases task.parents idx with
      | Except.error e => Except.error e
      | Except.ok true => Except.ok (allPhases.set idx (ph ++ [task]))
      | Except.ok false => placeLoop task allPhases (idx + 1) rest cols'
    else placeLoop task allPhases (idx + 1) rest cols'

/-- Place one task of the `_phase_creator` task list. -/
def placeTask (phases : List (List Task)) (task : Task) :
    Except Unit (List (List Task)) :=
  placeLoop task phases 0 phases (initCols task)

/-- `BaseWorkflow._phase_creator` over the leftover task list. -/
def phaseCreator (phases : List (List Task)) :
    List Task → Except Unit (List (List Task))
  | [] => Except.ok phases
  | t :: ts =>
    match placeTask phases t with
    | Except.error e => Except.error e
    | Except.ok ph => phaseCreator ph ts

/-- The phase-assembly portion of `load_config`: seed `self.phases` with
the baseline (when non-empty) and run `_phase_creator` on the leftovers. -/
def assemblePhases (master : List Task) : Except Unit (List (List Task)) :=
  let st := sortTaskTypes master
  phaseCreator (if st.1.isEmpty then [] else [st.1]) st.2

/-- `load_config` on a list-api configuration, down to the phase list. -/
def loadConfigPhases (cfg : Config) : Except Unit (List (List Task)) :=
  assemblePhases (masterFromConfig cfg)

/-- A dependency-free statistic task in the sense of `reorder_tasks`:
a `StatOperator` whose dependency list is exactly `["base"]`. -/
def isBaseStat (t : Task) : Bool :=
  t.op.kind == OpKind.stat && t.deps == ["base"]

/-- `Workflow.reorder_tasks`: hoist dependency-free statistic tasks into
up to two leading phases (categorical bucket first, everything else
second); every other task keeps its phase, and emptied phases are
dropped. -/
def reorderTasks (phases : List (List Task)) : List (List Task) :=
  let catStat := phases.flatMap
    (fun ph => ph.filter (fun t => isBaseStat t && t.cols == "categorical"))
  let contStat := phases.flatMap
    (fun ph => ph.filter (fun t => isBaseStat t && !(t.cols == "categorical")))
  let newPhases := (phases.map (fun ph => ph.filter (fun t => !isBaseStat t))).filter
    (fun ph => !ph.isEmpty)
  (if catStat.isEmpty then [] else [catStat]) ++
    (if contStat.isEmpty then [] else [contStat]) ++ newPhases

/-- Derived view: the `cat_stat_tasks` bucket collected by `reorder_tasks`. -/
def catBucket (phases : List (List Task)) : List Task :=
  phases.flatMap (fun ph => ph.filter (fun t => isBaseStat t && t.cols == "categorical"))

/-- Derived view: the `cont_stat_tasks` bucket collected by `reorder_tasks`
(every non-categorical dependency-free statistic task). -/
def contBucket (phases : List (List Task)) : List Task :=
  phases.flatMap (fun ph => ph.filter (fun t => isBaseStat t && !(t.cols == "categorical")))

/-- Derived view: the `new_phases` list kept by `reorder_tasks` — each
original phase stripped of its dependency-free statistic tasks, empty
phases dropped. -/
def keptPhases (phases : List (List Task)) : List (List Task) :=
  (phases.map (fun ph => ph.filter (fun t => !isBaseStat t))).filter
    (fun ph => !ph.isEmpty)

/-- The external operator-application contract consumed by
`_run_trans_ops_for_phase`: `DFOperator.apply_op` additionally reads the
statistics store. -/
structure ApplySem (DF Stats : Type) where
  applyDFOp : Op → DF → String → List String → Stats → DF
  applyTransform : Op → DF → String → List String → DF

/-- One iteration of the `_run_trans_ops_for_phase` loop: `DFOperator`
and plain `TransformOperator` tasks rebind `gdf`; `StatOperator` tasks
are skipped; `self.stats` is only ever read. -/
def runTransStep {DF Stats : Type} (sem : ApplySem DF Stats)
    (st : Stats × DF) (t : Task) : Stats × DF :=
  match t.op.kind with
  | OpKind.dfop => (st.1, sem.applyDFOp t.op st.2 t.cols t.deps st.1)
  | OpKind.transform => (st.1, sem.applyTransform t.op st.2 t.cols t.deps)
  | OpKind.stat => st

/-- `BaseWorkflow._run_trans_ops_for_phase`. -/
def runTransOpsForPhase {DF Stats : Type} (sem : ApplySem DF Stats)
    (st : Stats × DF) (tasks : List Task) : Stats × DF :=
  tasks.foldl (runTransStep sem) st

/-- `BaseWorkflow.apply_ops` without a writer: run the transform tasks of
phases `start..end-1` over the frame.  `start_phase`/`end_phase` default
through Python falsiness (`0` or `None` select the defaults); the loop
reads `self.phases[phase_index]`, which is always in range for the index
ranges the claims concern (modelled with `getD`). -/
def applyOps {DF Stats : Type} (sem : ApplySem DF Stats)
    (phases : List (List Task)) (st : Stats × DF)
    (startPhase endPhase : Nat) : Stats × DF :=
  let e := if endPhase = 0 then phases.length else endPhase
  (List.range' startPhase (e - startPhase)).foldl
    (fun s i => runTransOpsForPhase sem s (phases.getD i [])) st

/-- First-match association lookup, modelling Python dict access on the
insertion-ordered dicts of the workflow. -/
def lookupA {α : Type} : List (String × α) → String → Option α
  | [], _ => none
  | (k', v) :: rest, k => if k' = k then some v else lookupA rest k

/-- Association update of an existing key. -/
def updateA {α : Type} : List (String × α) → String → α → List (String × α)
  | [], _, _ => []
  | (k', v) :: rest, k, nv =>
    if k' = k then (k, nv) :: rest else (k', v) :: updateA rest k nv

/-- The workflow state touched by `_config_add_ops`: each column-group's
`base` column list from `columns_ctx`, and the declarative config. -/
structure WFState where
  columnsCtx : List (String × List String)
  config : List (String × List (String × List (List Op)))
deriving DecidableEq, Repr

/-- `BaseWorkflow._get_target_cols` on an operator chain:
`operators[0].get_default_in()` (raises `IndexError` on an empty list). -/
def getTargetCols : List Op → Except Unit String
  | [] => Except.error ()
  | o :: _ => Except.ok o.defaultIn

/-- `BaseWorkflow._config_add_ops`: returns the updated state and whether
a warning was emitted instead of adding the operators. -/
def configAddOps (st : WFState) (operators : List Op) (phase : String) :
    Except Unit (WFState × Bool) :=
  match getTargetCols operators with
  | Except.error e => Except.error e
  | Except.ok targetCols =>
    let emptyTarget : Bool :=
      targetCols == "" ||
        (match lookupA st.columnsCtx targetCols with
         | some base => base.isEmpty
         | none => false)
    if emptyTarget then Except.ok (st, true)
    else
      match lookupA st.config phase with
      | some cells =>
        match lookupA cells targetCols with
        | some chains =>
          Except.ok
            ({ st with
                config := updateA st.config phase
                  (updateA cells targetCols (chains ++ [operators])) },
              false)
        | none => Except.ok (st, true)
      | none => Except.ok (st, true)

/-- A phase of `P` with index at most `k` contains a task whose operator
id is `d`. -/
def coveredLE (P : List (List Task)) (k : Nat) (d : String) : Prop :=
  ∃ j, j ≤ k ∧ ∃ u ∈ P.getD j [], u.op.id = d

/-- A phase of `P` with index strictly below `k` contains a task whose
operator id contains `p.id` as a substring (the match `_find_parents`
actually performs). -/
def parentCoveredLT (P : List (List Task)) (k : Nat) (p : StatOp) : Prop :=
  ∃ j, j < k ∧ ∃ u ∈ P.getD j [], strMem p.id u.op.id = true

/-- What phase assembly actually guarantees for a task sitting in phase
`k`: it is a seed task, or its placement qualified (columns available by
phase `k`, parents substring-matched strictly earlier), or it heads the
trailing phase the fallback appended for it. -/
def taskPlacedOk (P : List (List Task)) (k : Nat) (t : Task) : Prop :=
  ("base" ∈ t.deps ∧ t.parents = [])
  ∨ ((∀ d ∈ t.deps, d ≠ "base" → coveredLE P k d) ∧
      (∀ p ∈ t.parents, parentCoveredLT P k p))
  ∨ (P.getD k []).head? = some t

/-- `P'` refines `P` by appending tasks to existing phases and appending
new phases: every phase of `P` is a left factor of the matching phase of
`P'`. -/
def phasesExtend (P P' : List (List Task)) : Prop :=
  ∀ j, ∃ s, P'.getD j [] = P.getD j [] ++ s

/-- Every task of every phase satisfies the placement guarantee. -/
def goodPhases (P : List (List Task)) : Prop :=
  ∀ k, ∀ t ∈ P.getD k [], taskPlacedOk P k t

/-- Some task of the phase has operator id `d`. -/
def producedInB (ph : List Task) (d : String) : Bool :=
  ph.any (fun u => u.op.id == d)

/-- Claim C1 as stated: every non-`base` dependency id of a task in phase
`k` is the id of a task in a phase of index at most `k`, and every
required parent operator appears (by identifier) in a phase of index
strictly below `k`. -/
def c1ClaimCheck (P : List (List Task)) : Bool :=
  P.enum.all (fun kp =>
    kp.2.all (fun t =>
      t.deps.all (fun d =>
        d == "base" || (P.take (kp.1 + 1)).any (fun ph => producedInB ph d)) &&
      t.parents.all (fun p =>
        (P.take kp.1).any (fun ph => producedInB ph p.id))))

/-- Claim C2 as stated: every dependency id of every task is `base` or
the id of a task in a phase of strictly smaller index. -/
def c2ClaimCheck (P : List (List Task)) : Bool :=
  P.enum.all (fun kp =>
    kp.2.all (fun t =>
      t.deps.all (fun d =>
        d == "base" || (P.take kp.1).any (fun ph => producedInB ph d))))

/-! Concrete fixtures used by scenario theorems, counterexamples and
witnesses. -/

/-- Plain transform `A` of the C5 chain. -/
def opA : Op := { id := "opa", kind := OpKind.transform, reqStats := [], defaultIn := "categorical" }

/-- Plain transform `B` of the C5 chain. -/
def opB : Op := { id := "opb", kind := OpKind.transform, reqStats := [], defaultIn := "categorical" }

/-- Plain transform `C` of the C5 chain. -/
def opC : Op := { id := "opc", kind := OpKind.transform, reqStats := [], defaultIn := "categorical" }

/-- The C5 configuration: one chain `[A, B, C]` on `categorical`. -/
def cfg5 : Config :=
  [("FE", [("all", []), ("continuous", []), ("categorical", [[opA, opB, opC]])]),
   ("PP", [("all", []), ("continuous", []), ("categorical", [])])]

/-- Task built for `A`. -/
def taskA5 : Task := { op := opA, cols := "categorical", deps := ["base"], parents := [] }

/-- Task built for `B`. -/
def taskB5 : Task := { op := opB, cols := "categorical", deps := ["opa"], parents := [] }

/-- Task built for `C`. -/
def taskC5 : Task := { op := opC, cols := "categorical", deps := ["opb"], parents := [] }

/-- The statistic required by the C6 stat-dependent transform. -/
def sMoments : StatOp := { id := "moments" }

/-- The declared C6 statistic operator `S` (continuous, no dependencies). -/
def opS : Op := { id := "moments", kind := OpKind.stat, reqStats := [], defaultIn := "continuous" }

/-- The C6 stat-dependent transform `T` requiring `S`. -/
def opT : Op := { id := "normalize", kind := OpKind.dfop, reqStats := [sMoments], defaultIn := "continuous" }

/-- The C6 configuration: `S` and `T` declared on `continuous` with no
explicit chain. -/
def cfg6 : Config :=
  [("FE", [("all", []), ("continuous", [[opS]]), ("categorical", [])]),
   ("PP", [("all", []), ("continuous", [[opT]]), ("categorical", [])])]

/-- Task built for `S`. -/
def taskS6 : Task := { op := opS, cols := "continuous", deps := ["base"], parents := [] }

/-- Task built for `T`. -/
def taskT6 : Task := { op := opT, cols := "continuous", deps := ["base"], parents := [sMoments] }

/-- C1 counterexample: seed transform whose id `xaby` strictly contains
the id `ab`. -/
def taskX : Task :=
  { op := { id := "xaby", kind := OpKind.transform, reqStats := [], defaultIn := "" },
    cols := "continuous", deps := ["base"], parents := [] }

/-- C1 counterexample: a stat-dependent task that depends on `xaby` and
requires the parent `xaby`, forcing a second phase. -/
def taskBB : Task :=
  { op := { id := "bb", kind := OpKind.dfop, reqStats := [⟨"xaby"⟩], defaultIn := "" },
    cols := "continuous", deps := ["xaby"], parents := [⟨"xaby"⟩] }

/-- C1 counterexample: a task requiring parent `ab`; no task with id `ab`
exists, but `_find_parents` substring-matches `ab` inside `xaby`. -/
def taskCC : Task :=
  { op := { id := "cc", kind := OpKind.dfop, reqStats := [⟨"ab"⟩], defaultIn := "" },
    cols := "continuous", deps := ["base"], parents := [⟨"ab"⟩] }

/-- C2 counterexample: head of a two-transform chain. -/
def taskAA : Task :=
  { op := { id := "aa", kind := OpKind.transform, reqStats := [], defaultIn := "" },
    cols := "categorical", deps := ["base"], parents := [] }

/-- C2 counterexample: depends on `aa`, satisfied inside the same phase. -/
def taskBBB : Task :=
  { op := { id := "bbb", kind := OpKind.transform, reqStats := [], defaultIn := "" },
    cols := "categorical", deps := ["aa"], parents := [] }

/-- C4 counterexample: first no-dependency statistic task. -/
def statAA : Task :=
  { op := { id := "aa", kind := OpKind.stat, reqStats := [], defaultIn := "" },
    cols := "categorical", deps := ["base"], parents := [] }

/-- C4 counterexample: second no-dependency statistic task, skipped by the
cursor after the first is removed. -/
def statBBB : Task :=
  { op := { id := "bbb", kind := OpKind.stat, reqStats := [], defaultIn := "" },
    cols := "categorical", deps := ["base"], parents := [] }

/-- C3 counterexample: existing master-list task with operator id `xaby`. -/
def masterXaby : Task :=
  { op := { id := "xaby", kind := OpKind.transform, reqStats := [], defaultIn := "" },
    cols := "continuous", deps := ["base"], parents := [] }

/-- C3 counterexample: candidate operator with id `ab`, a strict substring
of `xaby`. -/
def candAB : Op := { id := "ab", kind := OpKind.transform, reqStats := [], defaultIn := "" }

/-! Theorems. -/

/-- C5: for the configuration consisting of the single three-operator
chain `[A, B, C]` on `categorical` (no statistics anywhere), phase
assembly produces exactly one phase holding the tasks for `A`, `B`, `C`
in that order. -/
theorem chain_single_phase :
    loadConfigPhases cfg5 = Except.ok [[taskA5, taskB5, taskC5]] := rfl

/-- C6: for the configuration declaring the statistic `S` on `continuous`
and the stat-dependent transform `T` on `continuous` requiring `S`, phase
assembly produces exactly two phases: phase 0 holds the task for `S` and
phase 1 holds the task for `T`. -/
theorem stat_then_transform_two_phases :
    loadConfigPhases cfg6 = Except.ok [[taskS6], [taskT6]] := rfl

/-- C3 counterexample: the candidate operator `ab` on `continuous` shares
no identifier with any master-list task on that column-group, yet
`_build_tasks` drops it, because `_is_repeat_op` matches `ab` as a
substring of the existing id `xaby`. -/
theorem repeat_drop_counterexample :
    buildTasks [("continuous", [(candAB, [])])] [masterXaby] = []
    ∧ candAB.id ≠ masterXaby.op.id := by
  exact ⟨rfl, by decide⟩

/-- C3 (amended): a candidate task is dropped as a repeat if and only if
the master task list already contains a task on the same column-group
whose operator id contains the candidate's id as a substring; the
candidate's target task is appended exactly when no such task exists. -/
theorem repeat_drop_iff_substring (o : Op) (cols : String) (depGrp : List String)
    (master : List Task) :
    (isRepeatOpId o.id cols master = true
      ↔ ∃ t ∈ master, strMem o.id t.op.id = true ∧ t.cols = cols)
    ∧ (targetTask o cols depGrp ∈ tasksForPair cols master (o, depGrp)
      ↔ isRepeatOpId o.id cols master = false) := by
  constructor
  · simp only [isRepeatOpId, List.any_eq_true, Bool.and_eq_true, beq_iff_eq]
    constructor
    · rintro ⟨t, ht, hs, hc⟩; exact ⟨t, ht, hs, hc.symm⟩
    · rintro ⟨t, ht, hs, hc⟩; exact ⟨t, ht, hs, hc.symm⟩
  · constructor
    · intro hmem
      cases hrep : isRepeatOpId o.id cols master with
      | false => rfl
      | true =>
        exfalso
        simp only [tasksForPair, hrep, if_true, List.append_nil] at hmem
        by_cases hk : o.kind == OpKind.dfop
        · simp only [hk, if_true] at hmem
          rcases List.mem_filterMap.mp hmem with ⟨s, _, hsome⟩
          by_cases hr : isRepeatOpId s.id cols master
          · simp [hr] at hsome
          · rw [if_neg hr] at hsome
            have hop := congrArg Task.op (Option.some.inj hsome)
            have hso : s.toOp = o := by simpa [targetTask] using hop
            have hkind : o.kind = OpKind.dfop := beq_iff_eq.mp hk
            rw [← hso] at hkind
            simp [StatOp.toOp] at hkind
        · simp [hk] at hmem
    · intro hrep
      simp only [tasksForPair, hrep, if_false, targetTask]
      apply List.mem_append_right
      by_cases hk : o.kind == OpKind.dfop
      · simp [hk, defaultDeps]
      · simp [hk, defaultDeps]

/-- C3 witness: the amended equivalence evaluated on the concrete
substring counterexample input. -/
theorem repeat_drop_iff_substring_witness :
    (isRepeatOpId candAB.id "continuous" [masterXaby] = true
      ↔ ∃ t ∈ [masterXaby], strMem candAB.id t.op.id = true ∧ t.cols = "continuous")
    ∧ (targetTask candAB "continuous" [] ∈ tasksForPair "continuous" [masterXaby] (candAB, [])
      ↔ isRepeatOpId candAB.id "continuous" [masterXaby] = false) :=
  repeat_drop_iff_substring candAB "continuous" [] [masterXaby]

/-- C9: adding a non-empty operator chain whose target column-group
resolves to an empty string or to a group with an empty base column list
warns (`true` flag), leaves the configuration unchanged and raises no
error. -/
theorem config_add_ops_empty_target_skips (st : WFState) (o : Op) (rest : List Op)
    (phase : String)
    (h : o.defaultIn = "" ∨ lookupA st.columnsCtx o.defaultIn = some []) :
    configAddOps st (o :: rest) phase = Except.ok (st, true) := by
  rcases h with h | h
  · simp [configAddOps, getTargetCols, h]
  · by_cases h0 : o.defaultIn = ""
    · simp [configAddOps, getTargetCols, h0]
    · simp [configAddOps, getTargetCols, h, h0]

/-- C9 witness: a concrete workflow whose `categorical` base column list
is empty skips the chain `[A]` with a warning and an unchanged state. -/
theorem config_add_ops_empty_target_witness :
    configAddOps ⟨[("categorical", [])], []⟩ [opA] "FE"
      = Except.ok (⟨[("categorical", [])], []⟩, true) :=
  config_add_ops_empty_target_skips ⟨[("categorical", [])], []⟩ opA [] "FE" (Or.inr rfl)

/-- One application step leaves the statistics store untouched. -/
theorem runTransStep_fst {DF Stats : Type} (sem : ApplySem DF Stats)
    (st : Stats × DF) (t : Task) : (runTransStep sem st t).1 = st.1 := by
  cases h : t.op.kind <;> simp [runTransStep, h]

/-- A statistic task is a no-op for `_run_trans_ops_for_phase`. -/
theorem runTransStep_stat {DF Stats : Type} (sem : ApplySem DF Stats)
    (st : Stats × DF) (t : Task) (h : t.op.kind = OpKind.stat) :
    runTransStep sem st t = st := by
  simp [runTransStep, h]

/-- `_run_trans_ops_for_phase` leaves the statistics store untouched. -/
theorem runTransOpsForPhase_fst {DF Stats : Type} (sem : ApplySem DF Stats) :
    ∀ (tasks : List Task) (st : Stats × DF),
      (runTransOpsForPhase sem st tasks).1 = st.1 := by
  intro tasks
  induction tasks with
  | nil => intro st; rfl
  | cons t ts ih =>
    intro st
    have : runTransOpsForPhase sem st (t :: ts)
        = runTransOpsForPhase sem (runTransStep sem st t) ts := rfl
    rw [this, ih, runTransStep_fst]

/-- Dropping the statistic tasks of a phase does not change what
`_run_trans_ops_for_phase` computes. -/
theorem runTransOpsForPhase_filter {DF Stats : Type} (sem : ApplySem DF Stats) :
    ∀ (tasks : List Task) (st : Stats × DF),
      runTransOpsForPhase sem st
          (tasks.filter (fun t => !(t.op.kind == OpKind.stat)))
        = runTransOpsForPhase sem st tasks := by
  intro tasks
  induction tasks with
  | nil => intro st; rfl
  | cons t ts ih =>
    intro st
    have hcons : ∀ (st' : Stats × DF) (l : List Task),
        runTransOpsForPhase sem st' (t :: l)
          = runTransOpsForPhase sem (runTransStep sem st' t) l := fun _ _ => rfl
    by_cases h : t.op.kind = OpKind.stat
    · rw [List.filter_cons, if_neg (by simp [h]), ih, hcons,
        runTransStep_stat sem st t h]
    · rw [List.filter_cons, if_pos (by simp [h]), hcons, hcons, ih]

/-- Indexing a phase list whose phases were filtered. -/
theorem getD_map_filter (q : Task → Bool) :
    ∀ (phases : List (List Task)) (i : Nat),
      (phases.map (fun ph => ph.filter q)).getD i [] = (phases.getD i []).filter q := by
  intro phases
  induction phases with
  | nil => intro i; simp
  | cons ph phs ih =>
    intro i
    cases i with
    | zero => rfl
    | succ n => simpa using ih n

/-- The phase-application fold never changes the statistics store. -/
theorem foldPhases_fst {DF Stats : Type} (sem : ApplySem DF Stats)
    (phases : List (List Task)) :
    ∀ (idxs : List Nat) (st : Stats × DF),
      (idxs.foldl (fun s2 i => runTransOpsForPhase sem s2 (phases.getD i [])) st).1
        = st.1 := by
  intro idxs
  induction idxs with
  | nil => intro st; rfl
  | cons i is ih =>
    intro st
    rw [List.foldl_cons, ih, runTransOpsForPhase_fst]

/-- The phase-application fold ignores statistic tasks. -/
theorem foldPhases_filter {DF Stats : Type} (sem : ApplySem DF Stats)
    (phases : List (List Task)) :
    ∀ (idxs : List Nat) (st : Stats × DF),
      idxs.foldl (fun s2 i => runTransOpsForPhase sem s2
          ((phases.map (fun ph => ph.filter (fun t => !(t.op.kind == OpKind.stat)))).getD i []))
        st
      = idxs.foldl (fun s2 i => runTransOpsForPhase sem s2 (phases.getD i [])) st := by
  intro idxs
  induction idxs with
  | nil => intro st; rfl
  | cons i is ih =>
    intro st
    rw [List.foldl_cons, List.foldl_cons, getD_map_filter,
      runTransOpsForPhase_filter, ih]

/-- C10: `apply_ops` leaves the statistics store unchanged, and filtering
every statistic task out of the phase list leaves its result unchanged —
it applies only transform-kind operators of the selected phases. -/
theorem apply_ops_transform_only {DF Stats : Type} (sem : ApplySem DF Stats)
    (phases : List (List Task)) (st : Stats × DF) (s e : Nat) :
    (applyOps sem phases st s e).1 = st.1
    ∧ applyOps sem phases st s e
      = applyOps sem (phases.map (fun ph => ph.filter (fun t => !(t.op.kind == OpKind.stat))))
          st s e := by
  have hdef : ∀ (l : List (List Task)),
      applyOps sem l st s e
        = (List.range' s ((if e = 0 then l.length else e) - s)).foldl
            (fun s2 i => runTransOpsForPhase sem s2 (l.getD i [])) st :=
    fun _ => rfl
  constructor
  · rw [hdef phases]
    exact foldPhases_fst sem phases _ st
  · rw [hdef phases, hdef (phases.map (fun ph => ph.filter (fun t => !(t.op.kind == OpKind.stat)))),
      List.length_map]
    exact (foldPhases_filter sem phases _ st).symm

/-- `reorder_tasks` unfolded into its three derived views. -/
theorem reorderTasks_views (p : List (List Task)) :
    reorderTasks p
      = (if (catBucket p).isEmpty then [] else [catBucket p]) ++
        (if (contBucket p).isEmpty then [] else [contBucket p]) ++ keptPhases p := rfl

/-- Every task of the categorical bucket is a categorical dependency-free
statistic task. -/
theorem mem_catBucket {p : List (List Task)} {t : Task} (h : t ∈ catBucket p) :
    (isBaseStat t && t.cols == "categorical") = true := by
  rcases List.mem_flatMap.mp h with ⟨ph, _, hmem⟩
  exact (List.mem_filter.mp hmem).2

/-- Every task of the continuous bucket is a non-categorical
dependency-free statistic task. -/
theorem mem_contBucket {p : List (List Task)} {t : Task} (h : t ∈ contBucket p) :
    (isBaseStat t && !(t.cols == "categorical")) = true := by
  rcases List.mem_flatMap.mp h with ⟨ph, _, hmem⟩
  exact (List.mem_filter.mp hmem).2

/-- Every kept phase is non-empty and free of dependency-free statistic
tasks. -/
theorem mem_keptPhases {p : List (List Task)} {ph : List Task}
    (h : ph ∈ keptPhases p) :
    (!ph.isEmpty) = true ∧ ∀ t ∈ ph, isBaseStat t = false := by
  rcases List.mem_filter.mp h with ⟨hmem, hne⟩
  refine ⟨hne, ?_⟩
  rcases List.mem_map.mp hmem with ⟨ph0, _, rfl⟩
  intro t ht
  have := (List.mem_filter.mp ht).2
  simpa using this

/-- A phase list all of whose tasks fail the filter contributes nothing
to a bucket. -/
theorem flatMapFilter_nil (f : Task → Bool) :
    ∀ (l : List (List Task)), (∀ ph ∈ l, ∀ t ∈ ph, f t = false) →
      l.flatMap (fun ph => ph.filter f) = [] := by
  intro l
  induction l with
  | nil => intro _; rfl
  | cons ph phs ih =>
    intro h
    rw [List.flatMap_cons, ih (fun ph' hph' => h ph' (List.mem_cons_of_mem _ hph')),
      List.append_nil, List.filter_eq_nil_iff]
    intro t ht
    simp [h ph (List.mem_cons_self ph phs) t ht]

/-- The categorical bucket of a reordered phase list is unchanged. -/
theorem catBucket_reorder (p : List (List Task)) :
    catBucket (reorderTasks p) = catBucket p := by
  rw [reorderTasks_views]
  have hsplit : ∀ (xs ys : List (List Task)), catBucket (xs ++ ys)
      = catBucket xs ++ catBucket ys := fun xs ys => List.flatMap_append xs ys _
  rw [hsplit, hsplit]
  have hA : catBucket (if (catBucket p).isEmpty then [] else [catBucket p])
      = catBucket p := by
    by_cases h : (catBucket p).isEmpty
    · rw [if_pos h]
      rw [List.isEmpty_iff] at h
      rw [h]; rfl
    · rw [if_neg h]
      show (catBucket p).filter _ ++ [] = catBucket p
      rw [List.append_nil, List.filter_eq_self]
      intro t ht
      exact mem_catBucket ht
  have hB : catBucket (if (contBucket p).isEmpty then [] else [contBucket p]) = [] := by
    by_cases h : (contBucket p).isEmpty
    · rw [if_pos h]; rfl
    · rw [if_neg h]
      show (contBucket p).filter _ ++ [] = []
      rw [List.append_nil, List.filter_eq_nil_iff]
      intro t ht
      have h2 := mem_contBucket ht
      simp only [Bool.and_eq_true, Bool.not_eq_true', beq_eq_false_iff_ne] at h2
      simp [h2.2]
  have hN : catBucket (keptPhases p) = [] := by
    apply flatMapFilter_nil
    intro ph hph t ht
    have := (mem_keptPhases hph).2 t ht
    simp [this]
  rw [hA, hB, hN, List.append_nil, List.append_nil]

/-- The continuous bucket of a reordered phase list is unchanged. -/
theorem contBucket_reorder (p : List (List Task)) :
    contBucket (reorderTasks p) = contBucket p := by
  rw [reorderTasks_views]
  have hsplit : ∀ (xs ys : List (List Task)), contBucket (xs ++ ys)
      = contBucket xs ++ contBucket ys := fun xs ys => List.flatMap_append xs ys _
  rw [hsplit, hsplit]
  have hA : contBucket (if (catBucket p).isEmpty then [] else [catBucket p]) = [] := by
    by_cases h : (catBucket p).isEmpty
    · rw [if_pos h]; rfl
    · rw [if_neg h]
      show (catBucket p).filter _ ++ [] = []
      rw [List.append_nil, List.filter_eq_nil_iff]
      intro t ht
      have := mem_catBucket ht
      simp only [Bool.and_eq_true] at this ⊢
      simp [this.2]
  have hB : contBucket (if (contBucket p).isEmpty then [] else [contBucket p])
      = contBucket p := by
    by_cases h : (contBucket p).isEmpty
    · rw [if_pos h]
      rw [List.isEmpty_iff] at h
      rw [h]; rfl
    · rw [if_neg h]
      show (contBucket p).filter _ ++ [] = contBucket p
      rw [List.append_nil, List.filter_eq_self]
      intro t ht
      exact mem_contBucket ht
  have hN : contBucket (keptPhases p) = [] := by
    apply flatMapFilter_nil
    intro ph hph t ht
    have := (mem_keptPhases hph).2 t ht
    simp [this]
  rw [hA, hB, hN, List.append_nil, List.nil_append]

/-- The kept phases of a reordered phase list are unchanged. -/
theorem keptPhases_reorder (p : List (List Task)) :
    keptPhases (reorderTasks p) = keptPhases p := by
  rw [reorderTasks_views]
  have hsplit : ∀ (xs ys : List (List Task)), keptPhases (xs ++ ys)
      = keptPhases xs ++ keptPhases ys := by
    intro xs ys
    unfold keptPhases
    rw [List.map_append, List.filter_append]
  rw [hsplit, hsplit]
  have hA : keptPhases (if (catBucket p).isEmpty then [] else [catBucket p]) = [] := by
    by_cases h : (catBucket p).isEmpty
    · rw [if_pos h]; rfl
    · rw [if_neg h]
      unfold keptPhases
      rw [List.map_cons, List.map_nil]
      have : (catBucket p).filter (fun t => !isBaseStat t) = [] := by
        rw [List.filter_eq_nil_iff]
        intro t ht
        have := mem_catBucket ht
        simp only [Bool.and_eq_true] at this
        simp [this.1]
      rw [this]
      rfl
  have hB : keptPhases (if (contBucket p).isEmpty then [] else [contBucket p]) = [] := by
    by_cases h : (contBucket p).isEmpty
    · rw [if_pos h]; rfl
    · rw [if_neg h]
      unfold keptPhases
      rw [List.map_cons, List.map_nil]
      have : (contBucket p).filter (fun t => !isBaseStat t) = [] := by
        rw [List.filter_eq_nil_iff]
        intro t ht
        have := mem_contBucket ht
        simp only [Bool.and_eq_true] at this
        simp [this.1]
      rw [this]
      rfl
  have hmapself : ∀ (l : List (List Task)),
      (∀ ph ∈ l, ph.filter (fun t => !isBaseStat t) = ph) →
      l.map (fun ph => ph.filter (fun t => !isBaseStat t)) = l := by
    intro l
    induction l with
    | nil => intro _; rfl
    | cons x xs ih =>
      intro h
      rw [List.map_cons, h x (List.mem_cons_self x xs),
        ih (fun a ha => h a (List.mem_cons_of_mem _ ha))]
  have hN : keptPhases (keptPhases p) = keptPhases p := by
    have hmap : (keptPhases p).map (fun ph => ph.filter (fun t => !isBaseStat t))
        = keptPhases p := by
      apply hmapself
      intro ph hph
      rw [List.filter_eq_self]
      intro t ht
      simp [(mem_keptPhases hph).2 t ht]
    show ((keptPhases p).map (fun ph => ph.filter (fun t => !isBaseStat t))).filter
        (fun ph => !ph.isEmpty) = keptPhases p
    rw [hmap, List.filter_eq_self]
    intro ph hph
    exact (mem_keptPhases hph).1
  rw [hA, hB, hN]
  rfl

/-- C7: the reordering pass is idempotent — applying `reorder_tasks`
twice yields the same phase list as applying it once. -/
theorem reorder_tasks_idempotent (p : List (List Task)) :
    reorderTasks (reorderTasks p) = reorderTasks p := by
  rw [reorderTasks_views (reorderTasks p), catBucket_reorder, contBucket_reorder,
    keptPhases_reorder, ← reorderTasks_views]

/-- Flattening the per-phase filters of a phase list is filtering its
flattening. -/
theorem flatMapFilter_flatten (f : Task → Bool) :
    ∀ (l : List (List Task)),
      l.flatMap (fun ph => ph.filter f) = l.flatten.filter f := by
  intro l
  induction l with
  | nil => rfl
  | cons ph phs ih =>
    rw [List.flatMap_cons, List.flatten_cons, List.filter_append, ih]

/-- C8: `reorder_tasks` produces exactly this phase structure — first one
dedicated phase holding precisely the dependency-free (`["base"]`)
categorical statistic tasks of the input, in order (omitted when there
are none); then one dedicated phase holding precisely the remaining
dependency-free statistic tasks (the continuous-group ones), in order
(omitted when there are none); then, after both, the original phases with
those tasks removed and emptied phases dropped — so every phase that can
hold a transform comes after the leading statistic phases, and every
statistic task whose dependencies include a transform's output stays in
its original phase alongside its original phase-mates. -/
theorem reorder_hoists_base_stats (p : List (List Task)) :
    reorderTasks p
      = (if p.flatten.filter (fun t => isBaseStat t && t.cols == "categorical") = []
          then []
          else [p.flatten.filter (fun t => isBaseStat t && t.cols == "categorical")])
        ++ (if p.flatten.filter (fun t => isBaseStat t && !(t.cols == "categorical")) = []
            then []
            else [p.flatten.filter (fun t => isBaseStat t && !(t.cols == "categorical"))])
        ++ (p.map (fun ph => ph.filter (fun t => !isBaseStat t))).filter
            (fun ph => !ph.isEmpty)
    ∧ (∀ t ∈ p.flatten.filter (fun t => isBaseStat t && t.cols == "categorical"),
        t.op.kind = OpKind.stat ∧ t.deps = ["base"] ∧ t.cols = "categorical")
    ∧ (∀ t ∈ p.flatten.filter (fun t => isBaseStat t && !(t.cols == "categorical")),
        t.op.kind = OpKind.stat ∧ t.deps = ["base"] ∧ t.cols ≠ "categorical")
    ∧ (∀ ph ∈ (p.map (fun ph => ph.filter (fun t => !isBaseStat t))).filter
          (fun ph => !ph.isEmpty),
        ∀ t ∈ ph, isBaseStat t = false) := by
  have hcat : catBucket p
      = p.flatten.filter (fun t => isBaseStat t && t.cols == "categorical") :=
    flatMapFilter_flatten _ p
  have hcont : contBucket p
      = p.flatten.filter (fun t => isBaseStat t && !(t.cols == "categorical")) :=
    flatMapFilter_flatten _ p
  have hite : ∀ (l : List Task),
      (if l.isEmpty then ([] : List (List Task)) else [l])
        = (if l = [] then [] else [l]) := by
    intro l
    by_cases h : l = [] <;> simp [h]
  refine ⟨?_, ?_, ?_, ?_⟩
  · rw [reorderTasks_views, ← hcat, ← hcont, hite (catBucket p), hite (contBucket p)]
    rfl
  · intro t ht
    have := (List.mem_filter.mp ht).2
    simp only [Bool.and_eq_true, beq_iff_eq, isBaseStat] at this
    exact ⟨this.1.1, this.1.2, this.2⟩
  · intro t ht
    have := (List.mem_filter.mp ht).2
    simp only [Bool.and_eq_true, beq_iff_eq, isBaseStat, Bool.not_eq_true',
      beq_eq_false_iff_ne] at this
    exact ⟨this.1.1, this.1.2, this.2⟩
  · intro ph hph t ht
    exact (mem_keptPhases hph).2 t ht

/-- C1 counterexample: assembly completes on the three-task master list,
the task `cc` lands in phase 1, its required parent `ab` appears in no
earlier phase (no task anywhere has id `ab`), yet the claimed invariant
fails — `_find_parents` accepted the substring match of `ab` inside
`xaby`. -/
theorem phase_invariant_counterexample :
    assemblePhases [taskX, taskBB, taskCC] = Except.ok [[taskX], [taskBB, taskCC]]
    ∧ c1ClaimCheck [[taskX], [taskBB, taskCC]] = false := ⟨rfl, rfl⟩

/-- C2 counterexample: for the chained master list `[aa, bbb]` assembly
puts both tasks into phase 0, so `bbb`'s dependency `aa` is satisfied by
a task of the same phase, not a strictly earlier one. -/
theorem strict_dep_counterexample :
    assemblePhases [taskAA, taskBBB] = Except.ok [[taskAA, taskBBB]]
    ∧ c2ClaimCheck [[taskAA, taskBBB]] = false := ⟨rfl, rfl⟩

/-- C4 counterexample: both tasks are no-dependency tasks, yet the seed
step returns only the first — removing the current element shifts the
second into the cursor slot and the iteration skips it. -/
theorem seed_partition_counterexample :
    sortTaskTypes [statAA, statBBB] = ([statAA], [statBBB])
    ∧ ("base" ∈ statBBB.deps ∧ statBBB.parents = [])
    ∧ statBBB ∉ (sortTaskTypes [statAA, statBBB]).1 := by
  refine ⟨rfl, ⟨?_, rfl⟩, ?_⟩ <;> decide

/-- `getD` on `nil` is the default. -/
theorem getD_nil {α : Type} (d : α) (j : Nat) : ([] : List α).getD j d = d := by
  cases j <;> rfl

/-- `getD` past the end is the default. -/
theorem getD_ge {α : Type} (d : α) :
    ∀ (l : List α) (j : Nat), l.length ≤ j → l.getD j d = d := by
  intro l
  induction l with
  | nil => intro j _; exact getD_nil d j
  | cons x xs ih =>
    intro j hj
    cases j with
    | zero => simp at hj
    | succ n => exact ih n (Nat.le_of_succ_le_succ hj)

/-- `getD` below the length of the left list ignores an appended list. -/
theorem getD_append_lt {α : Type} (d : α) :
    ∀ (l l' : List α) (j : Nat), j < l.length → (l ++ l').getD j d = l.getD j d := by
  intro l
  induction l with
  | nil => intro l' j hj; simp at hj
  | cons x xs ih =>
    intro l' j hj
    cases j with
    | zero => rfl
    | succ n => exact ih l' n (Nat.lt_of_succ_lt_succ hj)

/-- `getD` at the length of the left list reads the appended head. -/
theorem getD_append_len {α : Type} (d : α) :
    ∀ (l : List α) (x : α), (l ++ [x]).getD l.length d = x := by
  intro l
  induction l with
  | nil => intro x; rfl
  | cons y ys ih => intro x; exact ih x

/-- `getD` of `set` at the written index. -/
theorem getD_set_eq {α : Type} (d : α) :
    ∀ (l : List α) (i : Nat) (x : α), i < l.length → (l.set i x).getD i d = x := by
  intro l
  induction l with
  | nil => intro i x hi; simp at hi
  | cons y ys ih =>
    intro i x hi
    cases i with
    | zero => rfl
    | succ n => exact ih n x (Nat.lt_of_succ_lt_succ hi)

/-- `getD` of `set` at another index. -/
theorem getD_set_ne {α : Type} (d : α) :
    ∀ (l : List α) (i : Nat) (x : α) (j : Nat), i ≠ j →
      (l.set i x).getD j d = l.getD j d := by
  intro l
  induction l with
  | nil => intro i x j _; rfl
  | cons y ys ih =>
    intro i x j hne
    cases i with
    | zero =>
      cases j with
      | zero => exact absurd rfl hne
      | succ m => rfl
    | succ n =>
      cases j with
      | zero => rfl
      | succ m => exact ih n x m (fun h => hne (by rw [h]))

/-- Reading the head of a `drop` decomposition. -/
theorem getD_of_drop {α : Type} (d : α) :
    ∀ (l : List α) (i : Nat) (x : α) (r : List α),
      l.drop i = x :: r → l.getD i d = x := by
  intro l
  induction l with
  | nil => intro i x r h; rw [List.drop_nil] at h; cases h
  | cons y ys ih =>
    intro i x r h
    cases i with
    | zero =>
      simp only [List.drop_zero] at h
      cases h
      rfl
    | succ n => exact ih n x r h

/-- A `drop` decomposition advances by one. -/
theorem drop_succ_of_drop {α : Type} :
    ∀ (l : List α) (i : Nat) (x : α) (r : List α),
      l.drop i = x :: r → l.drop (i + 1) = r := by
  intro l
  induction l with
  | nil => intro i x r h; rw [List.drop_nil] at h; cases h
  | cons y ys ih =>
    intro i x r h
    cases i with
    | zero =>
      simp only [List.drop_zero] at h
      cases h
      simp
    | succ n =>
      have := ih n x r h
      simpa using this

/-- A `drop` decomposition witnesses an in-range index. -/
theorem lt_length_of_drop {α : Type} :
    ∀ (l : List α) (i : Nat) (x : α) (r : List α),
      l.drop i = x :: r → i < l.length := by
  intro l
  induction l with
  | nil => intro i x r h; rw [List.drop_nil] at h; cases h
  | cons y ys ih =>
    intro i x r h
    cases i with
    | zero => simp
    | succ n => exact Nat.succ_lt_succ (ih n x r h)

/-- Extension is reflexive. -/
theorem phasesExtend_refl (P : List (List Task)) : phasesExtend P P :=
  fun _ => ⟨[], (List.append_nil _).symm⟩

/-- Extension is transitive. -/
theorem phasesExtend_trans {P P' P'' : List (List Task)}
    (h1 : phasesExtend P P') (h2 : phasesExtend P' P'') : phasesExtend P P'' := by
  intro j
  obtain ⟨s1, hs1⟩ := h1 j
  obtain ⟨s2, hs2⟩ := h2 j
  exact ⟨s1 ++ s2, by rw [hs2, hs1, List.append_assoc]⟩

/-- Availability of an operator id survives extension. -/
theorem coveredLE_mono {P P' : List (List Task)} (h : phasesExtend P P')
    {k : Nat} {d : String} (hc : coveredLE P k d) : coveredLE P' k d := by
  obtain ⟨j, hj, u, hu, hid⟩ := hc
  obtain ⟨s, hs⟩ := h j
  exact ⟨j, hj, u, by rw [hs]; exact List.mem_append_left _ hu, hid⟩

/-- Substring availability of a parent survives extension. -/
theorem parentCoveredLT_mono {P P' : List (List Task)} (h : phasesExtend P P')
    {k : Nat} {p : StatOp} (hc : parentCoveredLT P k p) : parentCoveredLT P' k p := by
  obtain ⟨j, hj, u, hu, hid⟩ := hc
  obtain ⟨s, hs⟩ := h j
  exact ⟨j, hj, u, by rw [hs]; exact List.mem_append_left _ hu, hid⟩

/-- Heading a phase survives extension. -/
theorem head_mono {P P' : List (List Task)} (h : phasesExtend P P')
    {k : Nat} {t : Task} (hc : (P.getD k []).head? = some t) :
    (P'.getD k []).head? = some t := by
  obtain ⟨s, hs⟩ := h k
  rw [hs]
  cases hk : P.getD k [] with
  | nil => rw [hk] at hc; cases hc
  | cons x xs =>
    rw [hk] at hc
    simp only [List.head?_cons] at hc
    simp [hc]

/-- The placement guarantee survives extension. -/
theorem taskPlacedOk_mono {P P' : List (List Task)} (h : phasesExtend P P')
    {k : Nat} {t : Task} (hok : taskPlacedOk P k t) : taskPlacedOk P' k t := by
  rcases hok with h1 | ⟨h2a, h2b⟩ | h3
  · exact Or.inl h1
  · exact Or.inr (Or.inl ⟨fun d hd hne => coveredLE_mono h (h2a d hd hne),
      fun p hp => parentCoveredLT_mono h (h2b p hp)⟩)
  · exact Or.inr (Or.inr (head_mono h h3))

/-- An element survives `removeFirstStr` unless it equals the removed
value. -/
theorem removeFirstStr_mem :
    ∀ (l : List String) (x d : String), d ∈ l →
      d ∈ removeFirstStr l x ∨ d = x := by
  intro l
  induction l with
  | nil => intro x d hd; cases hd
  | cons y ys ih =>
    intro x d hd
    simp only [removeFirstStr]
    by_cases hyx : y = x
    · rw [if_pos hyx]
      rcases List.mem_cons.mp hd with rfl | hmem
      · exact Or.inr hyx
      · exact Or.inl hmem
    · rw [if_neg hyx]
      rcases List.mem_cons.mp hd with rfl | hmem
      · exact Or.inl (List.mem_cons_self _ _)
      · rcases ih x d hmem with h1 | h1
        · exact Or.inl (List.mem_cons_of_mem _ h1)
        · exact Or.inr h1

/-- A value different from the removed one survives `removeFirstStr`. -/
theorem removeFirstStr_mem_of_ne {l : List String} {x d : String}
    (hd : d ∈ l) (hne : d ≠ x) : d ∈ removeFirstStr l x :=
  (removeFirstStr_mem l x d hd).resolve_right hne

/-- Every non-`base` dependency id survives the initial `base` removal of
`_phase_creator`. -/
theorem mem_initCols {t : Task} {d : String} (hd : d ∈ t.deps)
    (hne : d ≠ "base") : d ∈ initCols t := by
  unfold initCols
  by_cases hb : "base" ∈ t.deps
  · rw [if_pos hb]
    exact removeFirstStr_mem_of_ne hd hne
  · rw [if_neg hb]
    exact hd

/-- A still-needed id either remains needed after scanning a phase or the
phase produced it. -/
theorem scanPhaseCols_mem :
    ∀ (ph : List Task) (cols : List String) (d : String), d ∈ cols →
      d ∈ scanPhaseCols ph cols ∨ ∃ u ∈ ph, u.op.id = d := by
  intro ph
  induction ph with
  | nil => intro cols d hd; exact Or.inl hd
  | cons t ts ih =>
    intro cols d hd
    simp only [scanPhaseCols]
    by_cases hc : cols.isEmpty
    · rw [if_pos hc]
      exact Or.inl hd
    · rw [if_neg hc]
      by_cases hmem : t.op.id ∈ cols
      · rw [if_pos hmem]
        by_cases hdt : d = t.op.id
        · exact Or.inr ⟨t, List.mem_cons_self _ _, hdt.symm⟩
        · rcases ih (removeFirstStr cols t.op.id) d
              (removeFirstStr_mem_of_ne hd hdt) with h1 | ⟨u, hu, hid⟩
          · exact Or.inl h1
          · exact Or.inr ⟨u, List.mem_cons_of_mem _ hu, hid⟩
      · rw [if_neg hmem]
        rcases ih cols d hd with h1 | ⟨u, hu, hid⟩
        · exact Or.inl h1
        · exact Or.inr ⟨u, List.mem_cons_of_mem _ hu, hid⟩

/-- Successful `ops_copy.remove` only deletes one occurrence of the
removed value. -/
theorem removeFirstStat_ok_mem :
    ∀ (l : List StatOp) (x : StatOp) (l' : List StatOp),
      removeFirstStat l x = Except.ok l' →
      ∀ v ∈ l, v ∈ l' ∨ v = x := by
  intro l
  induction l with
  | nil => intro x l' h; cases h
  | cons y ys ih =>
    intro x l' h v hv
    simp only [removeFirstStat] at h
    split at h
    · cases h
      rcases List.mem_cons.mp hv with rfl | hmem
      · rename_i hyx; exact Or.inr hyx
      · exact Or.inl hmem
    · split at h
      · cases h
      · cases h
        rename_i l1 heq
        rcases List.mem_cons.mp hv with rfl | hmem
        · exact Or.inl (List.mem_cons_self _ _)
        · rcases ih x l1 heq v hmem with h1 | h1
          · exact Or.inl (List.mem_cons_of_mem _ h1)
          · exact Or.inr h1

/-- The inner scan of `_find_parents` removes only copies of the scanned
parent, and only when the phase substring-matches it. -/
theorem scanPhaseForOp_ok_mem (p : StatOp) :
    ∀ (ph : List Task) (copy c' : List StatOp),
      scanPhaseForOp p ph copy = Except.ok c' →
      ∀ v ∈ copy,
        v ∈ c' ∨ (v = p ∧ ∃ u ∈ ph, strMem p.id u.op.id = true) := by
  intro ph
  induction ph with
  | nil =>
    intro copy c' h v hv
    cases h
    exact Or.inl hv
  | cons t ts ih =>
    intro copy c' h v hv
    simp only [scanPhaseForOp] at h
    split at h
    · cases h
      exact Or.inl hv
    · split at h
      · split at h
        · cases h
        · rename_i c1 hrm
          rcases removeFirstStat_ok_mem copy p c1 hrm v hv with h1 | rfl
          · rcases ih c1 c' h v h1 with h2 | ⟨rfl, u, hu, hsu⟩
            · exact Or.inl h2
            · exact Or.inr ⟨rfl, u, List.mem_cons_of_mem _ hu, hsu⟩
          · exact Or.inr ⟨rfl, t, List.mem_cons_self _ _, by assumption⟩
      · rcases ih copy c' h v hv with h2 | ⟨rfl, u, hu, hsu⟩
        · exact Or.inl h2
        · exact Or.inr ⟨rfl, u, List.mem_cons_of_mem _ hu, hsu⟩

/-- The middle loop of `_find_parents` over the earlier phases. -/
theorem scanPhasesForOp_ok_mem (p : StatOp) :
    ∀ (phs : List (List Task)) (copy c' : List StatOp),
      scanPhasesForOp p phs copy = Except.ok c' →
      ∀ v ∈ copy,
        v ∈ c' ∨ (v = p ∧ ∃ e ∈ phs, ∃ u ∈ e, strMem p.id u.op.id = true) := by
  intro phs
  induction phs with
  | nil =>
    intro copy c' h v hv
    cases h
    exact Or.inl hv
  | cons ph rest ih =>
    intro copy c' h v hv
    simp only [scanPhasesForOp] at h
    split at h
    · cases h
      exact Or.inl hv
    · split at h
      · cases h
      · rename_i c1 heq
        rcases scanPhaseForOp_ok_mem p ph copy c1 heq v hv with h1 | ⟨rfl, u, hu, hsu⟩
        · rcases ih c1 c' h v h1 with h2 | ⟨rfl, e, he, u, hu, hsu⟩
          · exact Or.inl h2
          · exact Or.inr ⟨rfl, e, List.mem_cons_of_mem _ he, u, hu, hsu⟩
        · exact Or.inr ⟨rfl, ph, List.mem_cons_self _ _, u, hu, hsu⟩

/-- The outer loop of `_find_parents`: a value leaves the working copy
only with a substring witness in the scanned phases. -/
theorem findParentsAux_ok_mem (earlier : List (List Task)) :
    ∀ (ops copy c' : List StatOp),
      findParentsAux earlier ops copy = Except.ok c' →
      ∀ v ∈ copy,
        v ∈ c' ∨ ∃ e ∈ earlier, ∃ u ∈ e, strMem v.id u.op.id = true := by
  intro ops
  induction ops with
  | nil =>
    intro copy c' h v hv
    cases h
    exact Or.inl hv
  | cons p ps ih =>
    intro copy c' h v hv
    simp only [findParentsAux] at h
    split at h
    · cases h
    · rename_i c1 heq
      rcases scanPhasesForOp_ok_mem p earlier copy c1 heq v hv with h1 | ⟨rfl, hw⟩
      · exact ih c1 c' h v h1
      · exact Or.inr hw

/-- Membership in a `take` yields an index below the bound. -/
theorem mem_take_getD :
    ∀ (P : List (List Task)) (idx : Nat) (e : List Task),
      e ∈ P.take idx → ∃ j, j < idx ∧ P.getD j [] = e := by
  intro P
  induction P with
  | nil => intro idx e he; simp at he
  | cons ph phs ih =>
    intro idx e he
    cases idx with
    | zero => simp at he
    | succ n =>
      rw [List.take_succ_cons] at he
      rcases List.mem_cons.mp he with rfl | hmem
      · exact ⟨0, Nat.succ_pos n, rfl⟩
      · obtain ⟨j, hj, hget⟩ := ih n e hmem
        exact ⟨j + 1, Nat.succ_lt_succ hj, hget⟩

/-- When `_find_parents` succeeds, every listed parent has a
substring-matching task in a strictly earlier phase. -/
theorem findParents_true {P : List (List Task)} {ops : List StatOp} {idx : Nat}
    (h : findParents P ops idx = Except.ok true) :
    ∀ p ∈ ops, ∃ j, j < idx ∧ ∃ u ∈ P.getD j [], strMem p.id u.op.id = true := by
  intro p hp
  unfold findParents at h
  split at h
  · cases h
  · rename_i c heq
    have hempty : c.isEmpty = true := Except.ok.inj h
    have hc : c = [] := List.isEmpty_iff.mp hempty
    rcases findParentsAux_ok_mem (P.take idx) ops ops c heq p hp with h1 | ⟨e, he, u, hu, hsu⟩
    · rw [hc] at h1; cases h1
    · obtain ⟨j, hj, hget⟩ := mem_take_getD P idx e he
      exact ⟨j, hj, u, by rw [hget]; exact hu, hsu⟩

/-- What one `_phase_creator` placement does to the phase list: each phase
is untouched or has the placed task appended, and the appended task
satisfies the placement guarantee at its phase. -/
theorem placeLoop_ok (t : Task) (P : List (List Task)) :
    ∀ (rem : List (List Task)) (idx : Nat) (cols : List String)
      (P' : List (List Task)),
      P.drop idx = rem →
      (∀ d ∈ initCols t, d ∈ cols ∨ ∃ j, j < idx ∧ ∃ u ∈ P.getD j [], u.op.id = d) →
      placeLoop t P idx rem cols = Except.ok P' →
      ∀ k, P'.getD k [] = P.getD k []
        ∨ (P'.getD k [] = P.getD k [] ++ [t] ∧ taskPlacedOk P' k t) := by
  intro rem
  induction rem with
  | nil =>
    intro idx cols P' hdrop hcols h k
    simp only [placeLoop] at h
    cases h
    have hlen : P.length ≤ idx := by
      have h0 : (P.drop idx).length = 0 := by rw [hdrop]; rfl
      rw [List.length_drop] at h0
      exact Nat.sub_eq_zero_iff_le.mp h0
    rcases Nat.lt_trichotomy k P.length with hk | hk | hk
    · exact Or.inl (getD_append_lt [] P [[t]] k hk)
    · subst hk
      right
      have h1 : (P ++ [[t]]).getD P.length [] = [t] := getD_append_len [] P [t]
      have h2 : P.getD P.length [] = [] := getD_ge [] P P.length (Nat.le_refl _)
      refine ⟨by rw [h1, h2]; rfl, Or.inr (Or.inr ?_)⟩
      rw [h1]
      rfl
    · left
      have h1 : (P ++ [[t]]).getD k [] = [] := by
        apply getD_ge
        rw [List.length_append]
        simpa using hk
      have h2 : P.getD k [] = [] := getD_ge [] P k (Nat.le_of_lt hk)
      rw [h1, h2]
  | cons ph rest ih =>
    intro idx cols P' hdrop hcols h k
    have hph : P.getD idx [] = ph := getD_of_drop [] P idx ph rest hdrop
    have hdrop' : P.drop (idx + 1) = rest := drop_succ_of_drop P idx ph rest hdrop
    have hidx : idx < P.length := lt_length_of_drop P idx ph rest hdrop
    have hcols2 : ∀ d ∈ initCols t, d ∈ scanPhaseCols ph cols
        ∨ ∃ j, j < idx + 1 ∧ ∃ u ∈ P.getD j [], u.op.id = d := by
      intro d hd
      rcases hcols d hd with hmem | ⟨j, hj, hw⟩
      · rcases scanPhaseCols_mem ph cols d hmem with h1 | ⟨u, hu, hid⟩
        · exact Or.inl h1
        · exact Or.inr ⟨idx, Nat.lt_succ_self idx, u, by rw [hph]; exact hu, hid⟩
      · exact Or.inr ⟨j, Nat.lt_succ_of_lt hj, hw⟩
    simp only [placeLoop] at h
    split at h
    · rename_i hemp
      split at h
      · cases h
      · rename_i heq
        cases h
        have hext : phasesExtend P (P.set idx (ph ++ [t])) := by
          intro j
          by_cases hj : idx = j
          · subst hj
            exact ⟨[t], by rw [getD_set_eq [] P idx (ph ++ [t]) hidx, hph]⟩
          · exact ⟨[], by rw [getD_set_ne [] P idx (ph ++ [t]) j hj, List.append_nil]⟩
        by_cases hk : idx = k
        · subst hk
          right
          refine ⟨by rw [getD_set_eq [] P idx (ph ++ [t]) hidx, hph], ?_⟩
          refine Or.inr (Or.inl ⟨?_, ?_⟩)
          · intro d hd hne
            rcases hcols2 d (mem_initCols hd hne) with hmem | ⟨j, hj, hw⟩
            · rw [List.isEmpty_iff.mp hemp] at hmem
              cases hmem
            · exact coveredLE_mono hext ⟨j, Nat.lt_succ_iff.mp hj, hw⟩
          · intro p hp
            obtain ⟨j, hj, u, hu, hsu⟩ := findParents_true heq p hp
            exact parentCoveredLT_mono hext ⟨j, hj, u, hu, hsu⟩
        · exact Or.inl (getD_set_ne [] P idx (ph ++ [t]) k hk)
      · exact ih (idx + 1) (scanPhaseCols ph cols) P' hdrop' hcols2 h k
    · exact ih (idx + 1) (scanPhaseCols ph cols) P' hdrop' hcols2 h k

/-- `placeTask` phase-by-phase description. -/
theorem placeTask_ok {P P' : List (List Task)} {t : Task}
    (h : placeTask P t = Except.ok P') :
    ∀ k, P'.getD k [] = P.getD k []
      ∨ (P'.getD k [] = P.getD k [] ++ [t] ∧ taskPlacedOk P' k t) :=
  placeLoop_ok t P P 0 (initCols t) P' (by simp) (fun d hd => Or.inl hd) h

/-- `placeTask` only extends the phase list. -/
theorem placeTask_extends {P P' : List (List Task)} {t : Task}
    (h : placeTask P t = Except.ok P') : phasesExtend P P' := by
  intro j
  rcases placeTask_ok h j with h1 | ⟨h1, _⟩
  · exact ⟨[], by rw [h1, List.append_nil]⟩
  · exact ⟨[t], h1⟩

/-- `placeTask` preserves the placement guarantee for all tasks. -/
theorem placeTask_good {P P' : List (List Task)} {t : Task}
    (h : placeTask P t = Except.ok P') (hg : goodPhases P) : goodPhases P' := by
  intro k u hu
  rcases placeTask_ok h k with h1 | ⟨h1, hok⟩
  · rw [h1] at hu
    exact taskPlacedOk_mono (placeTask_extends h) (hg k u hu)
  · rw [h1] at hu
    rcases List.mem_append.mp hu with h2 | h2
    · exact taskPlacedOk_mono (placeTask_extends h) (hg k u h2)
    · rw [List.mem_singleton.mp h2]
      exact hok

/-- `placeTask` adds no task other than the placed one. -/
theorem placeTask_mem {P P' : List (List Task)} {t : Task}
    (h : placeTask P t = Except.ok P') :
    ∀ k u, u ∈ P'.getD k [] → u ∈ P.getD k [] ∨ u = t := by
  intro k u hu
  rcases placeTask_ok h k with h1 | ⟨h1, _⟩
  · rw [h1] at hu
    exact Or.inl hu
  · rw [h1] at hu
    rcases List.mem_append.mp hu with h2 | h2
    · exact Or.inl h2
    · exact Or.inr (List.mem_singleton.mp h2)

/-- `_phase_creator` only extends the seeded phases, preserves the
placement guarantee, and introduces only tasks from its task list. -/
theorem phaseCreator_ok :
    ∀ (ts : List Task) (P P' : List (List Task)),
      phaseCreator P ts = Except.ok P' →
      phasesExtend P P' ∧ (goodPhases P → goodPhases P')
      ∧ (∀ k u, u ∈ P'.getD k [] → u ∈ P.getD k [] ∨ u ∈ ts) := by
  intro ts
  induction ts with
  | nil =>
    intro P P' h
    cases h
    exact ⟨phasesExtend_refl P, id, fun k u hu => Or.inl hu⟩
  | cons t ts' ih =>
    intro P P' h
    simp only [phaseCreator] at h
    split at h
    · cases h
    · rename_i P1 heq
      obtain ⟨hext, hgood, hmem⟩ := ih P1 P' h
      refine ⟨phasesExtend_trans (placeTask_extends heq) hext,
        fun hg => hgood (placeTask_good heq hg), ?_⟩
      intro k u hu
      rcases hmem k u hu with h1 | h1
      · rcases placeTask_mem heq k u h1 with h2 | h2
        · exact Or.inl h2
        · exact Or.inr (h2 ▸ List.mem_cons_self _ _)
      · exact Or.inr (List.mem_cons_of_mem _ h1)

/-- Removing the first occurrence of a present element is a permutation
away from consing it back. -/
theorem removeFirstTask_perm :
    ∀ (l : List Task) (x : Task), x ∈ l → l.Perm (x :: removeFirstTask l x) := by
  intro l
  induction l with
  | nil => intro x hx; cases hx
  | cons y ys ih =>
    intro x hx
    simp only [removeFirstTask]
    by_cases hyx : y = x
    · rw [if_pos hyx, hyx]
    · rw [if_neg hyx]
      have hx' : x ∈ ys := by
        rcases List.mem_cons.mp hx with h1 | h1
        · exact absurd h1.symm hyx
        · exact h1
      exact ((ih x hx').cons y).trans (List.Perm.swap x y _)

/-- Every task the seed scan collects is a no-dependency task. -/
theorem sortLoop_nodeps :
    ∀ (fuel i : Nat) (master nodeps : List Task),
      (∀ t ∈ nodeps, "base" ∈ t.deps ∧ t.parents = []) →
      ∀ t ∈ (sortLoop fuel i master nodeps).1, "base" ∈ t.deps ∧ t.parents = [] := by
  intro fuel
  induction fuel with
  | zero => intro i master nodeps h; exact h
  | succ n ih =>
    intro i master nodeps h
    simp only [sortLoop]
    split
    · exact h
    · rename_i tup htup
      split
      · rename_i hcond
        apply ih
        intro t ht
        rcases List.mem_append.mp ht with h1 | h1
        · exact h t h1
        · rw [List.mem_singleton.mp h1]
          exact hcond
      · exact ih _ _ _ h

/-- The seed scan only repartitions the tasks it is given. -/
theorem sortLoop_perm :
    ∀ (fuel i : Nat) (master nodeps : List Task),
      ((sortLoop fuel i master nodeps).1 ++ (sortLoop fuel i master nodeps).2).Perm
        (nodeps ++ master) := by
  intro fuel
  induction fuel with
  | zero => intro i master nodeps; exact List.Perm.refl _
  | succ n ih =>
    intro i master nodeps
    simp only [sortLoop]
    split
    · exact List.Perm.refl _
    · rename_i tup htup
      have htmem : tup ∈ master := by
        obtain ⟨hlt, hget⟩ := List.getElem?_eq_some.mp htup
        exact hget ▸ List.getElem_mem hlt
      split
      · refine (ih (i + 1) (removeFirstTask master tup) (nodeps ++ [tup])).trans ?_
        rw [List.append_assoc]
        exact List.Perm.append_left nodeps (removeFirstTask_perm master tup htmem).symm
      · exact ih (i + 1) master nodeps

/-- What `load_config`'s phase assembly actually guarantees: the placement
guarantee for every task, membership of every placed task in the master
list, and extension of the seeded baseline phase. -/
theorem assemble_invariant (master : List Task) (P : List (List Task))
    (h : assemblePhases master = Except.ok P) :
    goodPhases P
    ∧ (∀ k u, u ∈ P.getD k [] → u ∈ master)
    ∧ phasesExtend
        (if (sortTaskTypes master).1.isEmpty then [] else [(sortTaskTypes master).1]) P := by
  unfold assemblePhases at h
  obtain ⟨hext, hgood, hmem⟩ := phaseCreator_ok (sortTaskTypes master).2 _ P h
  have hbase : ∀ t ∈ (sortTaskTypes master).1, "base" ∈ t.deps ∧ t.parents = [] :=
    sortLoop_nodeps master.length 0 master [] (fun t ht => absurd ht (List.not_mem_nil t))
  have hperm := sortLoop_perm master.length 0 master []
  have hg0 : goodPhases
      (if (sortTaskTypes master).1.isEmpty then [] else [(sortTaskTypes master).1]) := by
    by_cases hb : (sortTaskTypes master).1.isEmpty
    · rw [if_pos hb]
      intro k t ht
      rw [getD_nil] at ht
      cases ht
    · rw [if_neg hb]
      intro k t ht
      cases k with
      | zero => exact Or.inl (hbase t ht)
      | succ n =>
        rw [show ([(sortTaskTypes master).1] : List (List Task)).getD (n + 1) [] = []
          from rfl] at ht
        cases ht
  refine ⟨hgood hg0, ?_, hext⟩
  intro k u hu
  rcases hmem k u hu with h1 | h1
  · have hu2 : u ∈ (sortTaskTypes master).1 := by
      by_cases hb : (sortTaskTypes master).1.isEmpty
      · rw [if_pos hb, getD_nil] at h1
        cases h1
      · rw [if_neg hb] at h1
        cases k with
        | zero => exact h1
        | succ n =>
          rw [show ([(sortTaskTypes master).1] : List (List Task)).getD (n + 1) [] = []
            from rfl] at h1
          cases h1
    have := hperm.mem_iff.mp (List.mem_append_left _ hu2)
    simpa using this
  · have := hperm.mem_iff.mp (List.mem_append_right _ h1)
    simpa using this

/-- C1 (amended): when phase assembly completes, every task of phase `k`
satisfies one of: (a) it is a seed task (`base` among its dependencies,
no required parents); (b) every non-`base` dependency id is the id of a
task in a phase of index at most `k`, and for every required parent some
task in a phase of index strictly below `k` has an operator id containing
the parent's id as a substring; (c) it is the first task of its phase,
appended as a fresh trailing phase when no existing phase qualified.  The
claim as frozen fails: parents are matched by substring, not by
identifier, and fallback tasks carry no guarantee. -/
theorem phase_invariant_amended (master : List Task) (P : List (List Task))
    (h : assemblePhases master = Except.ok P) :
    ∀ k, ∀ t ∈ P.getD k [], taskPlacedOk P k t :=
  (assemble_invariant master P h).1

/-- C1 witness: the amended invariant evaluated on the counterexample
master list, at the task `cc` of phase 1. -/
theorem phase_invariant_amended_witness :
    assemblePhases [taskX, taskBB, taskCC] = Except.ok [[taskX], [taskBB, taskCC]]
    ∧ taskPlacedOk [[taskX], [taskBB, taskCC]] 1 taskCC :=
  ⟨rfl, phase_invariant_amended [taskX, taskBB, taskCC] [[taskX], [taskBB, taskCC]] rfl
    1 taskCC (List.mem_cons_of_mem _ (List.mem_cons_self _ _))⟩

/-- C2 (amended): when phase assembly completes on a master list whose
dependency lists are `["base"]` whenever they mention `base` (as every
builder-produced task list satisfies), each dependency entry of a task in
phase `k` is `base`, or the id of a task in a phase of index at most `k`
— same-phase satisfaction does occur — or the task heads its phase,
having been appended by the trailing-phase fallback with no guarantee. -/
theorem strict_dep_amended (master : List Task) (P : List (List Task))
    (h : assemblePhases master = Except.ok P)
    (hsingle : ∀ t ∈ master, "base" ∈ t.deps → t.deps = ["base"]) :
    ∀ k, ∀ t ∈ P.getD k [], ∀ d ∈ t.deps,
      d = "base" ∨ coveredLE P k d ∨ (P.getD k []).head? = some t := by
  obtain ⟨hgood, hmem, _⟩ := assemble_invariant master P h
  intro k t ht d hd
  rcases hgood k t ht with hseed | ⟨hdeps, _⟩ | hhead
  · left
    have := hsingle t (hmem k t ht) hseed.1
    rw [this] at hd
    simpa using hd
  · by_cases hb : d = "base"
    · exact Or.inl hb
    · exact Or.inr (Or.inl (hdeps d hd hb))
  · exact Or.inr (Or.inr hhead)

/-- C2 witness: the amended statement evaluated on the same-phase
counterexample, at the dependency `aa` of the task `bbb` in phase 0. -/
theorem strict_dep_amended_witness :
    assemblePhases [taskAA, taskBBB] = Except.ok [[taskAA, taskBBB]]
    ∧ ("aa" = "base" ∨ coveredLE [[taskAA, taskBBB]] 0 "aa"
        ∨ (([[taskAA, taskBBB]] : List (List Task)).getD 0 []).head? = some taskBBB) :=
  ⟨rfl, strict_dep_amended [taskAA, taskBBB] [[taskAA, taskBBB]] rfl (by decide)
    0 taskBBB (List.mem_cons_of_mem _ (List.mem_cons_self _ _))
    "aa" (List.mem_cons_self _ _)⟩

/-- C4 (amended): the seed step returns a pair whose first component
contains only no-dependency tasks, the two components together are a
permutation of the master list, and a non-empty first component seeds
phase 0, which greedy placement may later extend on the right.  The claim
as frozen fails: because `_sort_task_types` removes elements of the list
it is iterating, a no-dependency task immediately following a removed one
is skipped and left among the remaining tasks. -/
theorem seed_partition_amended (master : List Task) :
    (∀ t ∈ (sortTaskTypes master).1, "base" ∈ t.deps ∧ t.parents = [])
    ∧ ((sortTaskTypes master).1 ++ (sortTaskTypes master).2).Perm master
    ∧ ∀ P, assemblePhases master = Except.ok P →
        (sortTaskTypes master).1 ≠ [] →
        ∃ rest, P.getD 0 [] = (sortTaskTypes master).1 ++ rest := by
  refine ⟨sortLoop_nodeps master.length 0 master []
      (fun t ht => absurd ht (List.not_mem_nil t)), ?_, ?_⟩
  · have := sortLoop_perm master.length 0 master []
    simpa using this
  · intro P h hne
    obtain ⟨_, _, hext⟩ := assemble_invariant master P h
    have hif : (if (sortTaskTypes master).1.isEmpty then []
        else [(sortTaskTypes master).1]) = [(sortTaskTypes master).1] := by
      rw [if_neg]
      intro hcon
      exact hne (List.isEmpty_iff.mp hcon)
    rw [hif] at hext
    obtain ⟨s, hs⟩ := hext 0
    exact ⟨s, hs⟩

/-- C4 witness: the amended statement evaluated on the two-task skip
counterexample. -/
theorem seed_partition_amended_witness :
    ("base" ∈ statAA.deps ∧ statAA.parents = [])
    ∧ (((sortTaskTypes [statAA, statBBB]).1 ++ (sortTaskTypes [statAA, statBBB]).2).Perm
        [statAA, statBBB])
    ∧ ∃ rest, ([[statAA, statBBB]] : List (List Task)).getD 0 []
        = (sortTaskTypes [statAA, statBBB]).1 ++ rest := by
  have h := seed_partition_amended [statAA, statBBB]
  exact ⟨h.1 statAA (by decide), h.2.1, h.2.2 [[statAA, statBBB]] rfl (by decide)⟩

end NVT
